import Mathlib

/-!
Shallow embedding of `transforms/universal/resize/src/resize_transform.py`
(the `ResizeTransform` streaming rechunker and its configuration validation),
together with proofs of the behavioural properties claimed for it.

A pyarrow table is modelled as a `Batch`: a schema value plus a list of rows.
Row payloads are abstract (`α`); per-row byte sizes are given by an estimator
`sz : α → Nat`, and `table.nbytes` is the sum of the per-row sizes.
`pyarrow.concat_tables` succeeds exactly when the two schemas are equal.
The `ValueError` raised on concatenation failure is modelled as the
`Except.error` component of `transform`'s result.
-/

/-- A pyarrow table: a schema together with its rows. -/
structure Batch (σ α : Type) where
  schema : σ
  rows : List α
deriving DecidableEq

/-- `table.slice(offset=off, length=len)` acting on the row list. -/
def listSlice (l : List α) (off len : Nat) : List α :=
  (l.drop off).take len

/-- `table.nbytes` under the per-row estimator `sz`. -/
def nbytes (sz : α → Nat) (l : List α) : Nat :=
  (l.map sz).sum

/-- The mutable state of a `ResizeTransform` instance (`self.max_rows_per_table`,
`self.max_bytes_per_table`, `self.buffer`).  Row mode is selected when
`max_rows_per_table > 0`, byte mode otherwise, exactly as in `transform`. -/
structure ResizeState (σ α : Type) where
  max_rows_per_table : Nat
  max_bytes_per_table : Nat
  buffer : Option (Batch σ α)
deriving DecidableEq

namespace ResizeTransform

/-- The row-mode `while` loop of `ResizeTransform.transform` (source lines
96–104): while `start_row < n_rows` and `rows_left >= R`, slice
`min (n_rows - start_row) R` rows at `start_row`, append the slice, and advance
`start_row` and `rows_left` by `R`.  The extra `0 < R` guard only makes the
function total; `transform` enters this loop only when `R > 0`. -/
def rowLoop (R n_rows : Nat) (tbl : List α) (start_row rows_left : Nat)
    (acc : List (List α)) : List (List α) × Nat :=
  if h : start_row < n_rows ∧ R ≤ rows_left ∧ 0 < R then
    rowLoop R n_rows tbl (start_row + R) (rows_left - R)
      (acc ++ [listSlice tbl start_row (min (n_rows - start_row) R)])
  else
    (acc, start_row)
termination_by rows_left
decreasing_by omega

/-- The byte-mode `for` loop of `ResizeTransform.transform` (source lines
109–117): for each row index `n`, add the single-row size to `current_size`;
when it exceeds the budget, emit `table.slice(start_row, n - start_row)`,
set `start_row = n` and reset `current_size` to `0`.  `rem` is `tbl.drop n`,
the rows still to be scanned. -/
def byteLoop (B : Nat) (sz : α → Nat) (tbl : List α) :
    List α → Nat → Nat → Nat → List (List α) → List (List α) × Nat
  | [], _, start_row, _, acc => (acc, start_row)
  | r :: rest, n, start_row, current_size, acc =>
    let cs := current_size + sz r
    if B < cs then
      byteLoop B sz tbl rest (n + 1) n 0
        (acc ++ [listSlice tbl start_row (n - start_row)])
    else
      byteLoop B sz tbl rest (n + 1) start_row cs acc

/-- Source lines 90–124 of `ResizeTransform.transform`, after the buffer has
been merged into the working batch `tbl` (at this point `self.buffer` is
`None`): split `tbl` in row or byte mode, then buffer the rows from the final
`start_row` to the end when any remain. -/
def transformCore (sz : α → Nat) (st : ResizeState σ α) (tbl : Batch σ α) :
    Except String (List (Batch σ α)) × ResizeState σ α :=
  let n := tbl.rows.length
  let p :=
    if 0 < st.max_rows_per_table then
      rowLoop st.max_rows_per_table n tbl.rows 0 n []
    else if st.max_bytes_per_table < nbytes sz tbl.rows then
      byteLoop st.max_bytes_per_table sz tbl.rows tbl.rows 0 0 0 []
    else
      ([], 0)
  let st' :=
    if p.2 < n then
      { st with buffer := some ⟨tbl.schema, listSlice tbl.rows p.2 (n - p.2)⟩ }
    else
      st
  (Except.ok (p.1.map fun rs => ⟨tbl.schema, rs⟩), st')

/-- `ResizeTransform.transform` (source lines 68–124).  When a buffer is
pending, `pyarrow.concat_tables([self.buffer, table])` succeeds iff the two
schemas are equal; on failure the buffer is replaced by the incoming table and
the raised `ValueError` is returned as `Except.error`. -/
def transform [DecidableEq σ] (sz : α → Nat) (st : ResizeState σ α)
    (tbl : Batch σ α) : Except String (List (Batch σ α)) × ResizeState σ α :=
  match st.buffer with
  | some buf =>
    if buf.schema = tbl.schema then
      transformCore sz { st with buffer := none }
        ⟨tbl.schema, buf.rows ++ tbl.rows⟩
    else
      (Except.error
        "Can not concatenate buffered table with input table. Dropping buffer and proceeding.",
        { st with buffer := some tbl })
  | none => transformCore sz st tbl

/-- `ResizeTransform.flush` (source lines 126–134): emit the buffer if there is
one and clear it; otherwise emit nothing. -/
def flush (st : ResizeState σ α) : List (Batch σ α) × ResizeState σ α :=
  match st.buffer with
  | some b => ([b], { st with buffer := none })
  | none => ([], st)

/-- The rows currently held in the buffer (`[]` when the buffer is `None`). -/
def bufRows (st : ResizeState σ α) : List α :=
  match st.buffer with
  | some b => b.rows
  | none => []

/-- All rows of a list of batches, concatenated in order. -/
def flatRows (l : List (Batch σ α)) : List α :=
  (l.map Batch.rows).flatten

/-- Feed a sequence of input batches to one instance, in order, collecting the
output batches of every successful `transform` call (the runtime's per-partition
driving loop). -/
def runAll [DecidableEq σ] (sz : α → Nat) :
    ResizeState σ α → List (Batch σ α) → List (Batch σ α) × ResizeState σ α
  | st, [] => ([], st)
  | st, b :: bs =>
    let p := transform sz st b
    let q := runAll sz p.2 bs
    match p.1 with
    | Except.ok outs => (outs ++ q.1, q.2)
    | Except.error _ => (q.1, q.2)

/-- `ResizeTransformConfiguration.apply_input_params` (source lines 177–194):
fail when neither limit is positive, fail when both are, succeed otherwise.
`max_rows` is the integer `max_rows_per_table` CLI value and `max_mbytes` the
floating-point `max_mbytes_per_table` value (modelled as a rational). -/
def apply_input_params (max_rows : Int) (max_mbytes : Rat) : Bool :=
  if max_rows ≤ 0 ∧ max_mbytes ≤ 0 then false
  else if 0 < max_rows ∧ 0 < max_mbytes then false
  else true

/-- The byte-budget scan as §4.4 of the specification words it: scan row by
row accumulating single-row sizes into a running total; whenever the total
exceeds the budget, close the current chunk (the rows before the current row),
start a new chunk at the current row with the running total reset to zero;
the rows of the last, unclosed chunk become the buffer. -/
def specScan (B : Nat) (sz : α → Nat) :
    List α → Nat → List α → List (List α) × List α
  | pending, _, [] => ([], pending)
  | pending, current_size, r :: rest =>
    let cs := current_size + sz r
    if B < cs then
      let p := specScan B sz [r] 0 rest
      (pending :: p.1, p.2)
    else
      specScan B sz (pending ++ [r]) cs rest

/-- Invariant of the row-mode loop, for any entry point satisfying
`start_row + rows_left = tbl.length` (as holds at the loop head, where
`start_row = 0` and `rows_left = tbl.length`): the final offset, the
concatenation of the emitted slices, their number, and their exact length. -/
theorem rowLoop_spec (R : Nat) (tbl : List α) :
    ∀ (rows_left start_row : Nat) (acc : List (List α)), 0 < R →
      start_row + rows_left = tbl.length →
      (rowLoop R tbl.length tbl start_row rows_left acc).2
          = start_row + R * (rows_left / R) ∧
      (rowLoop R tbl.length tbl start_row rows_left acc).1.flatten
          ++ tbl.drop (rowLoop R tbl.length tbl start_row rows_left acc).2
          = acc.flatten ++ tbl.drop start_row ∧
      (rowLoop R tbl.length tbl start_row rows_left acc).1.length
          = acc.length + rows_left / R ∧
      ∀ x ∈ (rowLoop R tbl.length tbl start_row rows_left acc).1,
        x ∈ acc ∨ x.length = R := by
  intro rl
  induction rl using Nat.strongRecOn with
  | ind rl ih =>
    intro sr acc hR hinv
    rw [rowLoop]
    by_cases hc : sr < tbl.length ∧ R ≤ rl ∧ 0 < R
    · rw [dif_pos hc]
      have hrec := ih (rl - R) (by omega) (sr + R)
        (acc ++ [listSlice tbl sr (min (tbl.length - sr) R)]) hR (by omega)
      obtain ⟨h1, h2, h3, h4⟩ := hrec
      have hdiv : rl / R = (rl - R) / R + 1 := Nat.div_eq_sub_div hR hc.2.1
      have hmin : min (tbl.length - sr) R = R := by omega
      have hdd : tbl.drop (sr + R) = (tbl.drop sr).drop R := by
        rw [List.drop_drop, Nat.add_comm]
      have hslice : listSlice tbl sr (min (tbl.length - sr) R)
          ++ tbl.drop (sr + R) = tbl.drop sr := by
        rw [hmin, listSlice, hdd]
        exact List.take_append_drop R (tbl.drop sr)
      refine ⟨?_, ?_, ?_, ?_⟩
      · rw [h1, hdiv, Nat.mul_add]; omega
      · rw [h2, List.flatten_append, List.flatten_cons, List.flatten_nil,
          List.append_nil, List.append_assoc, hslice]
      · rw [h3, hdiv]; simp; omega
      · intro x hx
        rcases h4 x hx with hmem | hlen
        · rcases List.mem_append.mp hmem with hmem' | hone
          · exact Or.inl hmem'
          · right
            have : x = listSlice tbl sr (min (tbl.length - sr) R) :=
              List.mem_singleton.mp hone
            rw [this, hmin, listSlice, List.length_take, List.length_drop]
            omega
        · exact Or.inr hlen
    · rw [dif_neg hc]
      have hlt : rl < R := by
        by_contra hge
        exact hc ⟨by omega, by omega, hR⟩
      exact ⟨by simp [Nat.div_eq_of_lt hlt], rfl,
        by simp [Nat.div_eq_of_lt hlt], fun x hx => Or.inl hx⟩

/-- When the buffered batch (if any) has the incoming batch's schema,
`transform` concatenates the two and runs the splitting code on the result. -/
theorem transform_merge [DecidableEq σ] (sz : α → Nat) (st : ResizeState σ α)
    (tbl : Batch σ α)
    (hcompat : ∀ b, st.buffer = some b → b.schema = tbl.schema) :
    transform sz st tbl
      = transformCore sz { st with buffer := none }
          ⟨tbl.schema, bufRows st ++ tbl.rows⟩ := by
  cases hst : st.buffer with
  | none =>
    have hstate : ({ st with buffer := none } : ResizeState σ α) = st := by
      cases st
      simp_all
    have htbl : (⟨tbl.schema, bufRows st ++ tbl.rows⟩ : Batch σ α) = tbl := by
      cases tbl
      simp [bufRows, hst]
    rw [hstate, htbl]
    simp [transform, hst]
  | some buf =>
    simp [transform, hst, hcompat buf hst, bufRows]

/-- Row-mode behaviour of the splitting code (source lines 92–124) on the
working batch `w`, entered with an empty buffer: every emitted slice has
exactly `max_rows_per_table` rows, the emitted rows followed by the buffered
rows are exactly the working rows, the buffer holds `w.rows.length % R` rows,
and limits are unchanged. -/
theorem transformCore_row (sz : α → Nat) (st : ResizeState σ α)
    (w : Batch σ α) (hmode : 0 < st.max_rows_per_table)
    (hbuf : st.buffer = none) :
    ∃ outs st', transformCore sz st w = (Except.ok outs, st') ∧
      st'.max_rows_per_table = st.max_rows_per_table ∧
      st'.max_bytes_per_table = st.max_bytes_per_table ∧
      (∀ o ∈ outs, o.schema = w.schema ∧
        o.rows.length = st.max_rows_per_table) ∧
      outs.length = w.rows.length / st.max_rows_per_table ∧
      flatRows outs ++ bufRows st' = w.rows ∧
      (bufRows st').length = w.rows.length % st.max_rows_per_table ∧
      (w.rows.length % st.max_rows_per_table = 0 → st'.buffer = none) ∧
      ∀ b, st'.buffer = some b → b.schema = w.schema := by
  set R := st.max_rows_per_table with hR
  set n := w.rows.length with hn
  obtain ⟨h1, h2, h3, h4⟩ :=
    rowLoop_spec R w.rows n 0 [] hmode (by omega)
  set p := rowLoop R w.rows.length w.rows 0 n [] with hp
  have hfin : p.2 = R * (n / R) := by
    rw [hp, ← hn] at h1 ⊢
    omega
  have hfin_le : p.2 ≤ n := by
    rw [hfin, Nat.mul_comm]
    exact Nat.div_mul_le_self n R
  have hmod : n - p.2 = n % R := by
    have := Nat.mod_add_div n R
    omega
  have hcore : transformCore sz st w
      = (Except.ok (p.1.map fun rs => (⟨w.schema, rs⟩ : Batch σ α)),
         if p.2 < n then
           { st with
             buffer := some (Batch.mk w.schema (listSlice w.rows p.2 (n - p.2))) }
         else st) := by
    rw [transformCore]
    simp only [← hn, ← hR, if_pos hmode, ← hp]
  have hdropbuf : listSlice w.rows p.2 (n - p.2) = w.rows.drop p.2 := by
    rw [listSlice]
    have : (w.rows.drop p.2).length = n - p.2 := by
      rw [List.length_drop, hn]
    rw [← this, List.take_length]
  by_cases hlt : p.2 < n
  · refine ⟨p.1.map fun rs => (⟨w.schema, rs⟩ : Batch σ α),
      { st with
        buffer := some (Batch.mk w.schema (listSlice w.rows p.2 (n - p.2))) },
      by rw [hcore, if_pos hlt], rfl, rfl, ?_, ?_, ?_, ?_, ?_, ?_⟩
    · intro o ho
      obtain ⟨rs, hrs, hmk⟩ := List.mem_map.mp ho
      rcases h4 rs hrs with hmem | hlen
      · exact absurd hmem (List.not_mem_nil rs)
      · exact ⟨by rw [← hmk], by rw [← hmk]; exact hlen⟩
    · rw [List.length_map, h3, List.length_nil, Nat.zero_add]
    · simp only [flatRows, bufRows, List.map_map]
      have hmapback : (p.1.map fun rs => Batch.rows
          ((fun rs => (⟨w.schema, rs⟩ : Batch σ α)) rs)) = p.1 := by
        simp
      rw [show (Batch.rows ∘ fun rs => (⟨w.schema, rs⟩ : Batch σ α))
          = id by funext rs; rfl]
      rw [List.map_id, hdropbuf]
      have := h2
      rw [List.flatten_nil, List.nil_append, List.drop_zero] at this
      exact this
    · simp only [bufRows]
      rw [hdropbuf, List.length_drop, ← hn, hmod]
    · intro hzero
      exfalso
      omega
    · intro b hb
      simp only [Option.some.injEq] at hb
      rw [← hb]
  · refine ⟨p.1.map fun rs => (⟨w.schema, rs⟩ : Batch σ α), st,
      by rw [hcore, if_neg hlt], rfl, rfl, ?_, ?_, ?_, ?_, ?_, ?_⟩
    · intro o ho
      obtain ⟨rs, hrs, hmk⟩ := List.mem_map.mp ho
      rcases h4 rs hrs with hmem | hlen
      · exact absurd hmem (List.not_mem_nil rs)
      · exact ⟨by rw [← hmk], by rw [← hmk]; exact hlen⟩
    · rw [List.length_map, h3, List.length_nil, Nat.zero_add]
    · simp only [flatRows, bufRows, hbuf, List.map_map]
      rw [show (Batch.rows ∘ fun rs => (⟨w.schema, rs⟩ : Batch σ α))
          = id by funext rs; rfl]
      rw [List.map_id, List.append_nil]
      have := h2
      rw [List.flatten_nil, List.nil_append, List.drop_zero] at this
      have hdrop : w.rows.drop p.2 = [] := by
        apply List.drop_eq_nil_of_le
        omega
      rw [hdrop, List.append_nil] at this
      exact this
    · simp only [bufRows, hbuf, List.length_nil]
      omega
    · intro _
      exact hbuf
    · intro b hb
      rw [hbuf] at hb
      exact absurd hb (by simp)

/-- The byte-mode loop never moves `start_row` to the end of the table:
whenever an emission happens `start_row` is set to a valid row index, so the
final offset stays strictly below the row count when it started there. -/
theorem byteLoop_fin_lt (B : Nat) (sz : α → Nat) (tbl : List α) :
    ∀ (rem : List α) (n start_row current_size : Nat) (acc : List (List α)),
      rem = tbl.drop n → start_row < tbl.length →
      (byteLoop B sz tbl rem n start_row current_size acc).2 < tbl.length := by
  intro rem
  induction rem with
  | nil =>
    intro n sr cs acc _ hsr
    simpa [byteLoop] using hsr
  | cons r rest ih =>
    intro n sr cs acc hrem hsr
    have hn : n < tbl.length := by
      have := congrArg List.length hrem
      simp [List.length_drop] at this
      omega
    have hrest : rest = tbl.drop (n + 1) := by
      have : (tbl.drop n).drop 1 = rest := by rw [← hrem]; rfl
      rw [← this, List.drop_drop, Nat.add_comm]
    rw [byteLoop]
    by_cases hcs : B < cs + sz r
    · simp only [if_pos hcs]
      exact ih (n + 1) n 0 _ hrest hn
    · simp only [if_neg hcs]
      exact ih (n + 1) sr (cs + sz r) acc hrest hsr

/-- The byte-mode loop of the source computes exactly the chunks of the
specification's scan (`specScan`): entered at row `n` with the pending chunk
being the rows from `start_row` to `n`, it appends `specScan`'s chunks to the
accumulator, and the rows from its final offset to the end of the table are
`specScan`'s leftover buffer. -/
theorem byteLoop_eq_specScan (B : Nat) (sz : α → Nat) (tbl : List α) :
    ∀ (rem : List α) (n start_row current_size : Nat) (acc : List (List α)),
      rem = tbl.drop n → start_row ≤ n → start_row ≤ tbl.length →
      (byteLoop B sz tbl rem n start_row current_size acc).1
          = acc ++ (specScan B sz (listSlice tbl start_row (n - start_row))
              current_size rem).1 ∧
      listSlice tbl (byteLoop B sz tbl rem n start_row current_size acc).2
          (tbl.length - (byteLoop B sz tbl rem n start_row current_size acc).2)
          = (specScan B sz (listSlice tbl start_row (n - start_row))
              current_size rem).2 := by
  intro rem
  induction rem with
  | nil =>
    intro n sr cs acc hrem hsrn hsrl
    have hlen : tbl.length ≤ n := by
      have := congrArg List.length hrem
      simp [List.length_drop] at this
      omega
    constructor
    · simp [byteLoop, specScan]
    · simp only [byteLoop, specScan]
      have hfull : (tbl.drop sr).length = tbl.length - sr := List.length_drop sr tbl
      rw [listSlice, listSlice, ← hfull, List.take_length,
        List.take_of_length_le (by omega)]
  | cons r rest ih =>
    intro n sr cs acc hrem hsrn hsrl
    have hn : n < tbl.length := by
      have := congrArg List.length hrem
      simp [List.length_drop] at this
      omega
    have hrest : rest = tbl.drop (n + 1) := by
      have : (tbl.drop n).drop 1 = rest := by rw [← hrem]; rfl
      rw [← this, List.drop_drop, Nat.add_comm]
    have hgetn : tbl[n]? = some r := by
      have h0 : (tbl.drop n)[0]? = some r := by rw [← hrem]; simp
      rw [List.getElem?_drop, Nat.add_zero] at h0
      exact h0
    rw [byteLoop]
    simp only [specScan]
    by_cases hcs : B < cs + sz r
    · simp only [if_pos hcs]
      have hpend1 : listSlice tbl n (n + 1 - n) = [r] := by
        rw [listSlice, show n + 1 - n = 1 by omega]
        rw [List.take_one, ← hrem]
        simp
      obtain ⟨ha, hb⟩ := ih (n + 1) n 0
        (acc ++ [listSlice tbl sr (n - sr)]) hrest (by omega) (by omega)
      rw [hpend1] at ha hb
      refine ⟨?_, hb⟩
      rw [ha, List.append_assoc]
      rfl
    · simp only [if_neg hcs]
      have hpend : listSlice tbl sr (n + 1 - sr)
          = listSlice tbl sr (n - sr) ++ [r] := by
        rw [listSlice, listSlice, show n + 1 - sr = (n - sr) + 1 by omega,
          List.take_succ]
        have : (tbl.drop sr)[n - sr]? = some r := by
          rw [List.getElem?_drop, show sr + (n - sr) = n by omega]
          exact hgetn
        rw [this]
        rfl
      obtain ⟨ha, hb⟩ := ih (n + 1) sr (cs + sz r) acc hrest
        (by omega) hsrl
      rw [hpend] at ha hb
      exact ⟨ha, hb⟩

/-- The chunks of the specification scan followed by its leftover buffer are
exactly the pending rows followed by the scanned rows: the scan neither loses,
duplicates nor reorders rows. -/
theorem specScan_flatten (B : Nat) (sz : α → Nat) :
    ∀ (rows pending : List α) (current_size : Nat),
      ((specScan B sz pending current_size rows).1).flatten
          ++ (specScan B sz pending current_size rows).2
        = pending ++ rows := by
  intro rows
  induction rows with
  | nil => intro pending cs; simp [specScan]
  | cons r rest ih =>
    intro pending cs
    rw [specScan]
    by_cases hcs : B < cs + sz r
    · simp only [if_pos hcs, List.flatten_cons, List.append_assoc]
      rw [ih [r] 0]
      rfl
    · simp only [if_neg hcs]
      rw [ih (pending ++ [r]) (cs + sz r), List.append_assoc]
      rfl

/-- The leftover buffer of the specification scan is nonempty whenever the
pending chunk or the remaining rows are. -/
theorem specScan_buf_ne (B : Nat) (sz : α → Nat) :
    ∀ (rows pending : List α) (current_size : Nat),
      pending ≠ [] ∨ rows ≠ [] →
      (specScan B sz pending current_size rows).2 ≠ [] := by
  intro rows
  induction rows with
  | nil =>
    intro pending cs h
    rcases h with h | h
    · simpa [specScan] using h
    · exact absurd rfl h
  | cons r rest ih =>
    intro pending cs _
    rw [specScan]
    by_cases hcs : B < cs + sz r
    · simp only [if_pos hcs]
      exact ih [r] 0 (Or.inl (by simp))
    · simp only [if_neg hcs]
      exact ih (pending ++ [r]) (cs + sz r) (Or.inl (by simp))

/-- Byte-mode behaviour of the splitting code on a working batch whose total
estimated size exceeds the budget, entered with an empty buffer: the emitted
batches are exactly the chunks of the specification scan and the buffer holds
its leftover rows. -/
theorem transformCore_byte_big (sz : α → Nat) (st : ResizeState σ α)
    (w : Batch σ α) (hmode : st.max_rows_per_table = 0)
    (hbig : st.max_bytes_per_table < nbytes sz w.rows) :
    transformCore sz st w
      = (Except.ok (((specScan st.max_bytes_per_table sz [] 0 w.rows).1).map
            fun rs => (⟨w.schema, rs⟩ : Batch σ α)),
         { st with buffer := some (Batch.mk w.schema
             (specScan st.max_bytes_per_table sz [] 0 w.rows).2) }) := by
  have hne : w.rows ≠ [] := by
    intro hnil
    rw [hnil] at hbig
    simp [nbytes] at hbig
  have hpos : 0 < w.rows.length := List.length_pos.mpr hne
  obtain ⟨ha, hb⟩ := byteLoop_eq_specScan st.max_bytes_per_table sz w.rows
    w.rows 0 0 0 [] (by simp) (Nat.le_refl 0) (Nat.zero_le _)
  have hfin := byteLoop_fin_lt st.max_bytes_per_table sz w.rows
    w.rows 0 0 0 [] (by simp) hpos
  rw [transformCore]
  simp only [hmode, Nat.lt_irrefl, if_false, if_pos hbig]
  have hslice0 : listSlice w.rows 0 (0 - 0) = [] := by
    simp [listSlice]
  rw [hslice0] at ha hb
  rw [if_pos hfin, ha, hb]
  simp

/-- Byte-mode behaviour of the splitting code on a nonempty working batch whose
total estimated size is within the budget, entered with an empty buffer: no
output is emitted and the whole working batch is buffered. -/
theorem transformCore_byte_small (sz : α → Nat) (st : ResizeState σ α)
    (w : Batch σ α) (hmode : st.max_rows_per_table = 0)
    (hsmall : nbytes sz w.rows ≤ st.max_bytes_per_table)
    (hne : w.rows ≠ []) :
    transformCore sz st w
      = (Except.ok [], { st with buffer := some w }) := by
  have hpos : 0 < w.rows.length := List.length_pos.mpr hne
  rw [transformCore]
  simp only [hmode, Nat.lt_irrefl, if_false, if_neg (Nat.not_lt.mpr hsmall)]
  rw [if_pos hpos]
  have hwhole : listSlice w.rows 0 (w.rows.length - 0) = w.rows := by
    simp [listSlice]
  rw [hwhole]
  simp

/-- The rows emitted by `flush` are exactly the buffered rows. -/
theorem flush_flatRows (st : ResizeState σ α) :
    flatRows (flush st).1 = bufRows st := by
  cases h : st.buffer <;> simp [flush, flatRows, bufRows, h]

/-- `flatRows` distributes over concatenation of batch lists. -/
theorem flatRows_append (l₁ l₂ : List (Batch σ α)) :
    flatRows (l₁ ++ l₂) = flatRows l₁ ++ flatRows l₂ := by
  simp [flatRows]

/-- `flatRows` of a cons. -/
theorem flatRows_cons (b : Batch σ α) (l : List (Batch σ α)) :
    flatRows (b :: l) = b.rows ++ flatRows l := by
  simp [flatRows]

/-- Driving invariant for a row-mode instance fed schema-`s` batches: across
any batch sequence, the rows of all emitted batches followed by the final
buffered rows are the initially buffered rows followed by all input rows, the
row limit is preserved, and the buffer keeps schema `s`. -/
theorem runAll_row_inv [DecidableEq σ] (sz : α → Nat) (s : σ) :
    ∀ (bs : List (Batch σ α)) (st : ResizeState σ α),
      0 < st.max_rows_per_table →
      (∀ b ∈ bs, b.schema = s) →
      (∀ b, st.buffer = some b → b.schema = s) →
      flatRows (runAll sz st bs).1 ++ bufRows (runAll sz st bs).2
          = bufRows st ++ flatRows bs ∧
      0 < (runAll sz st bs).2.max_rows_per_table ∧
      ∀ b, (runAll sz st bs).2.buffer = some b → b.schema = s := by
  intro bs
  induction bs with
  | nil =>
    intro st hmode _ hbufs
    refine ⟨?_, hmode, hbufs⟩
    simp [runAll, flatRows]
  | cons b bs ih =>
    intro st hmode hschemas hbufs
    have hb : b.schema = s := hschemas b (List.mem_cons_self b bs)
    have hcompat : ∀ x, st.buffer = some x → x.schema = b.schema := by
      intro x hx
      rw [hbufs x hx, hb]
    have hmerge := transform_merge sz st b hcompat
    obtain ⟨outs, st', hcore, hmr, _, _, _, hflat, _, _, hbufschema⟩ :=
      transformCore_row sz { st with buffer := none }
        (⟨b.schema, bufRows st ++ b.rows⟩ : Batch σ α) hmode rfl
    have htr : transform sz st b = (Except.ok outs, st') := by
      rw [hmerge, hcore]
    obtain ⟨ih1, ih2, ih3⟩ := ih st' (by rw [hmr]; exact hmode)
      (fun x hx => hschemas x (List.mem_cons_of_mem b hx))
      (fun x hx => by rw [hbufschema x hx, hb])
    have hrun : runAll sz st (b :: bs)
        = (outs ++ (runAll sz st' bs).1, (runAll sz st' bs).2) := by
      rw [runAll]
      simp only [htr]
    rw [hrun]
    refine ⟨?_, ih2, ih3⟩
    rw [flatRows_append, flatRows_cons, List.append_assoc, ih1,
      ← List.append_assoc, hflat, List.append_assoc]

/-- C1: for every sequence of input batches with compatible schemas processed
in row-budget mode with limit `R`, the concatenation of all output batches
emitted across all `transform` calls plus the final `flush` equals the
concatenation of the input batches, in the same row order, with no row
duplicated and no row lost. -/
theorem row_mode_order_preservation [DecidableEq σ] (sz : α → Nat)
    (R B : Nat) (hR : 0 < R) (s : σ) (bs : List (Batch σ α))
    (hs : ∀ b ∈ bs, b.schema = s) :
    flatRows ((runAll sz ⟨R, B, none⟩ bs).1
        ++ (flush (runAll sz ⟨R, B, none⟩ bs).2).1)
      = flatRows bs := by
  obtain ⟨h1, _, _⟩ := runAll_row_inv sz s bs ⟨R, B, none⟩ hR hs
    (fun b hb => Option.noConfusion hb)
  rw [flatRows_append, flush_flatRows, h1]
  exact List.nil_append _

/-- Concrete run of `row_mode_order_preservation`: two batches of rows
`[0,1,2]` and `[3,4]` through a fresh row-mode instance with `R = 2`. -/
theorem row_mode_order_preservation_witness :
    flatRows ((runAll (fun _ => (0:Nat)) (⟨2, 0, none⟩ : ResizeState Unit Nat)
          [⟨(), [0, 1, 2]⟩, ⟨(), [3, 4]⟩]).1
        ++ (flush (runAll (fun _ => (0:Nat)) (⟨2, 0, none⟩ : ResizeState Unit Nat)
          [⟨(), [0, 1, 2]⟩, ⟨(), [3, 4]⟩]).2).1)
      = flatRows [⟨(), [0, 1, 2]⟩, ⟨(), [3, 4]⟩] :=
  row_mode_order_preservation (fun _ => 0) 2 0 (by decide) ()
    [⟨(), [0, 1, 2]⟩, ⟨(), [3, 4]⟩] (fun b _ => rfl)

/-- C2: in row-budget mode with limit `R`, every returned batch has exactly
`R` rows, the emitted rows followed by the new buffer are the working rows
(buffered rows followed by the incoming rows), the new buffer holds the
remainder — strictly fewer than `R` rows, and none when the remainder is
zero — and the number of emitted batches is the working row count divided
by `R`. -/
theorem row_mode_exact_split [DecidableEq σ] (sz : α → Nat)
    (st : ResizeState σ α) (tbl : Batch σ α)
    (hmode : 0 < st.max_rows_per_table)
    (hcompat : ∀ b, st.buffer = some b → b.schema = tbl.schema) :
    ∃ outs st', transform sz st tbl = (Except.ok outs, st') ∧
      (∀ o ∈ outs, o.rows.length = st.max_rows_per_table) ∧
      outs.length = (bufRows st ++ tbl.rows).length / st.max_rows_per_table ∧
      flatRows outs ++ bufRows st' = bufRows st ++ tbl.rows ∧
      (bufRows st').length
          = (bufRows st ++ tbl.rows).length % st.max_rows_per_table ∧
      (bufRows st').length < st.max_rows_per_table ∧
      ((bufRows st ++ tbl.rows).length % st.max_rows_per_table = 0 →
        st'.buffer = none) := by
  rw [transform_merge sz st tbl hcompat]
  obtain ⟨outs, st', hcore, hmr, hmb, houts, hcount, hflat, hbuflen, hzero,
      hbufsch⟩ :=
    transformCore_row sz { st with buffer := none }
      (⟨tbl.schema, bufRows st ++ tbl.rows⟩ : Batch σ α) hmode rfl
  exact ⟨outs, st', hcore, fun o ho => (houts o ho).2, hcount, hflat, hbuflen,
    by rw [hbuflen]; exact Nat.mod_lt _ hmode, hzero⟩

/-- Concrete run of `row_mode_exact_split`: a 2500-row working batch with
`R = 1000` yields two 1000-row outputs and a 500-row buffer. -/
theorem row_mode_exact_split_witness :
    ∃ outs st',
      transform (fun _ => (0:Nat)) (⟨1000, 0, none⟩ : ResizeState Unit Nat)
          ⟨(), List.replicate 2500 0⟩ = (Except.ok outs, st') ∧
      outs.length = 2 ∧ (∀ o ∈ outs, o.rows.length = 1000) ∧
      (bufRows st').length = 500 := by
  obtain ⟨outs, st', heq, houts, hcount, _, hbuflen, _, _⟩ :=
    row_mode_exact_split (fun _ => (0:Nat))
      (⟨1000, 0, none⟩ : ResizeState Unit Nat) ⟨(), List.replicate 2500 0⟩
      (by decide) (fun b hb => Option.noConfusion hb)
  have hb0 : bufRows (⟨1000, 0, none⟩ : ResizeState Unit Nat) = [] := rfl
  refine ⟨outs, st', heq, ?_, houts, ?_⟩
  · rw [hcount, hb0]
    norm_num
  · rw [hbuflen, hb0]
    norm_num

/-- C3 counterexample: the code keeps no terminal state.  On a concrete
instance with a buffered batch, the first `flush` returns the buffer and a
second `flush` returns a silently empty result rather than failing. -/
theorem flush_second_call_silently_empty :
    (flush (flush (⟨5, 0, some ⟨(), [0]⟩⟩ : ResizeState Unit Nat)).2).1
        = [] ∧
    (flush (⟨5, 0, some ⟨(), [0]⟩⟩ : ResizeState Unit Nat)).1
        = [⟨(), [0]⟩] :=
  ⟨rfl, rfl⟩

/-- C3 amended: after `flush` the buffer is empty; a second `flush` silently
returns no output and leaves the state unchanged (and a `transform` after
`flush` simply runs on the emptied buffer) — the instance is not put into a
terminal state and no contract violation is signalled. -/
theorem flush_not_terminal (st : ResizeState σ α) :
    (flush (flush st).2).1 = [] ∧ (flush (flush st).2).2 = (flush st).2 ∧
    (flush st).2.buffer = none := by
  cases h : st.buffer <;> simp [flush, h]

/-- C4: when concatenating the buffer with the incoming batch fails because
the schemas differ, the call reports the failure on the error channel (the
raised `ValueError`, recoverable per call) with no output batches, and the
old buffer is discarded and replaced by the incoming batch. -/
theorem schema_mismatch_recoverable [DecidableEq σ] (sz : α → Nat)
    (st : ResizeState σ α) (tbl buf : Batch σ α)
    (hbuf : st.buffer = some buf) (hne : buf.schema ≠ tbl.schema) :
    (transform sz st tbl).1 = Except.error
        "Can not concatenate buffered table with input table. Dropping buffer and proceeding." ∧
    (transform sz st tbl).2 = { st with buffer := some tbl } := by
  simp [transform, hbuf, hne]

/-- Concrete run of `schema_mismatch_recoverable`: a buffered batch of schema
`true` meets an incoming batch of schema `false`. -/
theorem schema_mismatch_recoverable_witness :
    (transform (fun _ => (0:Nat))
        (⟨5, 0, some ⟨true, [0]⟩⟩ : ResizeState Bool Nat) ⟨false, [1]⟩).1
      = Except.error
        "Can not concatenate buffered table with input table. Dropping buffer and proceeding." ∧
    (transform (fun _ => (0:Nat))
        (⟨5, 0, some ⟨true, [0]⟩⟩ : ResizeState Bool Nat) ⟨false, [1]⟩).2
      = ⟨5, 0, some ⟨false, [1]⟩⟩ := by
  have h := schema_mismatch_recoverable (fun _ => (0:Nat))
    (⟨5, 0, some ⟨true, [0]⟩⟩ : ResizeState Bool Nat) ⟨false, [1]⟩
    ⟨true, [0]⟩ rfl (by decide)
  exact ⟨h.1, h.2⟩

/-- C5: in byte-budget mode, when the working batch's total estimated size
exceeds the budget `B`, `transform` behaves exactly as the specification's
row-by-row scan: it emits the slice from the current chunk start to the
current row (exclusive) whenever the running total exceeds `B`, resetting the
total to zero and starting the next chunk at the current row, and the rows
from the last closed boundary to the end become the new buffer. -/
theorem byte_mode_scan_refines_spec [DecidableEq σ] (sz : α → Nat)
    (st : ResizeState σ α) (tbl : Batch σ α)
    (hmode : st.max_rows_per_table = 0)
    (hcompat : ∀ b, st.buffer = some b → b.schema = tbl.schema)
    (hbig : st.max_bytes_per_table < nbytes sz (bufRows st ++ tbl.rows)) :
    transform sz st tbl
      = (Except.ok
          (((specScan st.max_bytes_per_table sz [] 0
              (bufRows st ++ tbl.rows)).1).map
            fun rs => (⟨tbl.schema, rs⟩ : Batch σ α)),
         { st with buffer := some (Batch.mk tbl.schema
             (specScan st.max_bytes_per_table sz [] 0
               (bufRows st ++ tbl.rows)).2) }) := by
  rw [transform_merge sz st tbl hcompat,
    transformCore_byte_big sz { st with buffer := none }
      (⟨tbl.schema, bufRows st ++ tbl.rows⟩ : Batch σ α) hmode hbig]

/-- Concrete run of `byte_mode_scan_refines_spec`: two rows of estimated size
10 against a byte budget of 5 produce an empty first chunk, a one-row second
chunk, and a one-row buffer. -/
theorem byte_mode_scan_refines_spec_witness :
    transform (fun _ => (10:Nat)) (⟨0, 5, none⟩ : ResizeState Unit Unit)
        ⟨(), [(), ()]⟩
      = (Except.ok [⟨(), []⟩, ⟨(), [()]⟩], ⟨0, 5, some ⟨(), [()]⟩⟩) := by
  have h := byte_mode_scan_refines_spec (fun _ => (10:Nat))
    (⟨0, 5, none⟩ : ResizeState Unit Unit) ⟨(), [(), ()]⟩ rfl
    (fun b hb => Option.noConfusion hb) (by decide)
  rw [h]
  rfl

/-- C6 counterexample: a working batch with zero rows has estimated size
`0 ≤ B`, yet the buffer stays empty (`None`) instead of holding the working
batch, and the subsequent `flush` returns no batch at all rather than the
working batch unchanged. -/
theorem byte_mode_empty_batch_counterexample :
    (transform (fun _ => (1:Nat)) (⟨0, 100, none⟩ : ResizeState Unit Unit)
        ⟨(), []⟩).1 = Except.ok [] ∧
    (transform (fun _ => (1:Nat)) (⟨0, 100, none⟩ : ResizeState Unit Unit)
        ⟨(), []⟩).2.buffer = none ∧
    (flush (transform (fun _ => (1:Nat))
        (⟨0, 100, none⟩ : ResizeState Unit Unit) ⟨(), []⟩).2).1 = [] :=
  ⟨rfl, rfl, rfl⟩

/-- C6 amended: in byte-budget mode, for every nonempty working batch whose
total estimated byte size is at most the budget, `transform` emits no outputs
and the whole working batch becomes the buffer; a subsequent `flush` returns
that batch unchanged.  (For an empty working batch the buffer stays empty and
`flush` emits nothing.) -/
theorem byte_mode_under_threshold [DecidableEq σ] (sz : α → Nat)
    (st : ResizeState σ α) (tbl : Batch σ α)
    (hmode : st.max_rows_per_table = 0)
    (hcompat : ∀ b, st.buffer = some b → b.schema = tbl.schema)
    (hsmall : nbytes sz (bufRows st ++ tbl.rows) ≤ st.max_bytes_per_table)
    (hne : bufRows st ++ tbl.rows ≠ []) :
    transform sz st tbl = (Except.ok [],
      { st with
        buffer := some (Batch.mk tbl.schema (bufRows st ++ tbl.rows)) }) ∧
    (flush { st with
        buffer := some (Batch.mk tbl.schema (bufRows st ++ tbl.rows)) }).1
      = [Batch.mk tbl.schema (bufRows st ++ tbl.rows)] := by
  constructor
  · rw [transform_merge sz st tbl hcompat,
      transformCore_byte_small sz { st with buffer := none }
        (⟨tbl.schema, bufRows st ++ tbl.rows⟩ : Batch σ α) hmode hsmall hne]
  · rfl

/-- Concrete run of `byte_mode_under_threshold`: one row of estimated size 1
against a byte budget of 100 is buffered whole and flushed unchanged. -/
theorem byte_mode_under_threshold_witness :
    transform (fun _ => (1:Nat)) (⟨0, 100, none⟩ : ResizeState Unit Unit)
        ⟨(), [()]⟩
      = (Except.ok [], ⟨0, 100, some ⟨(), [()]⟩⟩) ∧
    (flush (⟨0, 100, some ⟨(), [()]⟩⟩ : ResizeState Unit Unit)).1
      = [⟨(), [()]⟩] := by
  have h := byte_mode_under_threshold (fun _ => (1:Nat))
    (⟨0, 100, none⟩ : ResizeState Unit Unit) ⟨(), [()]⟩ rfl
    (fun b hb => Option.noConfusion hb) (by decide) (by decide)
  exact ⟨h.1, h.2⟩

/-- C7: `flush` returns the buffered batch when one is present and nothing
otherwise, clears the buffer, and never re-applies the row or byte threshold:
the buffered remainder is emitted as-is whatever its size and whatever the
configured limits. -/
theorem flush_drains_buffer (st : ResizeState σ α) :
    (flush st).1 = st.buffer.toList ∧
    (flush st).2 = { st with buffer := none } := by
  cases h : st.buffer with
  | none =>
    refine ⟨by simp [flush, h], ?_⟩
    cases st
    simp_all [flush]
  | some b => exact ⟨by simp [flush, h], by simp [flush, h]⟩

/-- C8: `apply_input_params` succeeds exactly when one of
`max_rows_per_table` and `max_mbytes_per_table` is positive and the other is
not: it fails when both are positive and when neither is. -/
theorem apply_input_params_mutual_exclusivity (max_rows : Int)
    (max_mbytes : Rat) :
    apply_input_params max_rows max_mbytes = true ↔
      ((0 < max_rows ∧ ¬ 0 < max_mbytes) ∨
       (¬ 0 < max_rows ∧ 0 < max_mbytes)) := by
  rcases lt_or_le 0 max_rows with hr | hr <;>
    rcases lt_or_le 0 max_mbytes with hm | hm
  · rw [apply_input_params,
      if_neg (fun hb => absurd hr (not_lt.mpr hb.1)), if_pos ⟨hr, hm⟩]
    simp [hr, hm]
  · rw [apply_input_params,
      if_neg (fun hb => absurd hr (not_lt.mpr hb.1)),
      if_neg (fun hb => absurd hb.2 (not_lt.mpr hm))]
    simp [hr, not_lt.mpr hm]
  · rw [apply_input_params,
      if_neg (fun hb => absurd hm (not_lt.mpr hb.2)),
      if_neg (fun hb => absurd hb.1 (not_lt.mpr hr))]
    simp [hm, not_lt.mpr hr]
  · rw [apply_input_params, if_pos ⟨hr, hm⟩]
    simp [not_lt.mpr hr, not_lt.mpr hm]

/-- C9: in byte-budget mode, whenever the working batch (buffered rows plus
incoming rows) is nonempty and concatenation succeeds, the buffer after the
call is nonempty and holds a suffix of the working rows: the last working row
is never emitted by `transform` itself, only by a later call or by `flush`. -/
theorem byte_mode_buffer_nonempty [DecidableEq σ] (sz : α → Nat)
    (st : ResizeState σ α) (tbl : Batch σ α)
    (hmode : st.max_rows_per_table = 0)
    (hcompat : ∀ b, st.buffer = some b → b.schema = tbl.schema)
    (hne : bufRows st ++ tbl.rows ≠ []) :
    ∃ outs st' b, transform sz st tbl = (Except.ok outs, st') ∧
      st'.buffer = some b ∧ b.rows ≠ [] ∧
      flatRows outs ++ b.rows = bufRows st ++ tbl.rows := by
  rw [transform_merge sz st tbl hcompat]
  by_cases hbig : st.max_bytes_per_table < nbytes sz (bufRows st ++ tbl.rows)
  · rw [transformCore_byte_big sz { st with buffer := none }
      (⟨tbl.schema, bufRows st ++ tbl.rows⟩ : Batch σ α) hmode hbig]
    refine ⟨_, _, _, rfl, rfl, ?_, ?_⟩
    · exact specScan_buf_ne _ sz _ [] 0 (Or.inr hne)
    · rw [flatRows]
      simp only [List.map_map]
      rw [show (Batch.rows ∘ fun rs => (⟨tbl.schema, rs⟩ : Batch σ α)) = id
          from funext fun _ => rfl, List.map_id]
      exact specScan_flatten _ sz _ [] 0
  · push_neg at hbig
    rw [transformCore_byte_small sz { st with buffer := none }
      (⟨tbl.schema, bufRows st ++ tbl.rows⟩ : Batch σ α) hmode hbig hne]
    exact ⟨[], _, _, rfl, rfl, hne, by simp [flatRows]⟩

/-- Concrete run of `byte_mode_buffer_nonempty`: a single oversized row is
kept in the buffer, not emitted. -/
theorem byte_mode_buffer_nonempty_witness :
    ∃ outs st' b,
      transform (fun _ => (10:Nat)) (⟨0, 5, none⟩ : ResizeState Unit Unit)
          ⟨(), [()]⟩ = (Except.ok outs, st') ∧
      st'.buffer = some b ∧ b.rows ≠ [] ∧
      flatRows outs ++ b.rows
        = bufRows (⟨0, 5, none⟩ : ResizeState Unit Unit) ++ [()] :=
  byte_mode_buffer_nonempty (fun _ => (10:Nat))
    (⟨0, 5, none⟩ : ResizeState Unit Unit) ⟨(), [()]⟩ rfl
    (fun b hb => Option.noConfusion hb) (by decide)

/-- C10: in byte-budget mode there is an input whose first row alone exceeds
the byte budget, and on it `transform` emits a zero-row batch: with budget 5
and a single row of estimated size 10, the output list is one empty batch. -/
theorem byte_mode_zero_row_slice :
    (transform (fun _ => (10:Nat)) (⟨0, 5, none⟩ : ResizeState Unit Unit)
        ⟨(), [()]⟩).1 = Except.ok [⟨(), []⟩] ∧
    (⟨(), []⟩ : Batch Unit Unit).rows.length = 0 :=
  ⟨rfl, rfl⟩

end ResizeTransform
